import Mathlib

/-
  Verification development for the task-filter / calendar core of the
  jiujiu-obsidian-calendar plugin.

  Strings are modelled as `List Char` (`Str`).  JavaScript `Date` instants
  are modelled as integers (milliseconds since the Unix epoch) where an
  instant is needed, and as integer epoch-day counts where only calendar
  days are needed.  The host timezone is modelled by an explicit offset
  parameter (minutes east of UTC), since JavaScript `Date` semantics mix
  UTC-based and local-based operations.
-/

namespace JJCal

/-- Strings are modelled as lists of characters. -/
abbrev Str := List Char

/-- Whitespace test used to model the JavaScript `\s` character class and
`String.prototype.trim` on the character sets that occur in this program
(space, tab, carriage return, line feed). -/
def isWs (c : Char) : Bool :=
  c = ' ' || c = '\t' || c = '\r' || c = '\n'

/-- `beginsWith pat s` holds when `pat` is an initial segment of `s`;
models JavaScript `s.startsWith(pat)`. -/
def beginsWith : Str → Str → Bool
  | [], _ => true
  | _ :: _, [] => false
  | a :: as, b :: bs => a = b && beginsWith as bs

/-- `containsSub hay needle` holds when `needle` occurs contiguously in
`hay`; models JavaScript `hay.includes(needle)`. -/
def containsSub : Str → Str → Bool
  | hay, needle =>
    beginsWith needle hay ||
      match hay with
      | [] => false
      | _ :: t => containsSub t needle

theorem beginsWith_iff (pat s : Str) :
    beginsWith pat s = true ↔ ∃ rest, s = pat ++ rest := by
  induction pat generalizing s with
  | nil => simp [beginsWith]
  | cons a as ih =>
    cases s with
    | nil => simp [beginsWith]
    | cons b bs =>
      simp only [beginsWith, Bool.and_eq_true, decide_eq_true_eq, ih]
      constructor
      · rintro ⟨rfl, rest, rfl⟩
        exact ⟨rest, rfl⟩
      · rintro ⟨rest, h⟩
        cases h
        exact ⟨rfl, rest, rfl⟩

theorem containsSub_iff (hay needle : Str) :
    containsSub hay needle = true ↔ ∃ p s, hay = p ++ needle ++ s := by
  induction hay with
  | nil =>
    simp only [containsSub, Bool.or_false, beginsWith_iff]
    constructor
    · rintro ⟨rest, h⟩
      exact ⟨[], rest, by simpa using h⟩
    · rintro ⟨p, s, h⟩
      have hp : p = [] := by
        cases p with
        | nil => rfl
        | cons x xs => simp at h
      subst hp
      exact ⟨s, by simpa using h⟩
  | cons c t ih =>
    simp only [containsSub, Bool.or_eq_true, beginsWith_iff, ih]
    constructor
    · rintro (⟨rest, h⟩ | ⟨p, s, h⟩)
      · exact ⟨[], rest, by simpa using h⟩
      · exact ⟨c :: p, s, by simp [h]⟩
    · rintro ⟨p, s, h⟩
      cases p with
      | nil => exact Or.inl ⟨s, by simpa using h⟩
      | cons x xs =>
        simp only [List.cons_append, List.cons.injEq] at h
        exact Or.inr ⟨xs, s, h.2⟩

/-! ## Data model (src/services/taskService.ts) -/

/-- The `Task` interface from `taskService.ts`.  `dueDate` is an optional
instant (milliseconds since epoch, as a JavaScript `Date` time value). -/
structure Task where
  text : Str
  completed : Bool
  filePath : Str
  dueDate : Option Int
  rawText : Str
deriving DecidableEq

/-- The `FilterRuleType` union (`'include' | 'exclude'`). -/
inductive FilterRuleType where
  | includeRule
  | excludeRule
deriving DecidableEq

/-- The `FilterRule` interface. -/
structure FilterRule where
  rtype : FilterRuleType
  value : Str
  isTag : Bool
deriving DecidableEq

/-- The `LogicalOperator` union (`'and' | 'or'`). -/
inductive LogicalOperator where
  | andOp
  | orOp
deriving DecidableEq

/-- The `ExpressionNode` interface.  The source uses one record type with
optional fields; only the three well-formed shapes below are ever
constructed by the parser, and `evaluateExpression` returns `true` on any
malformed node, so the inductive covers all reachable values. -/
inductive ExpressionNode where
  | rule (r : FilterRule)
  | logical (op : LogicalOperator) (left right : ExpressionNode)
  | group (expressions : List ExpressionNode)

/-- `matchFilterRule` from `taskService.ts`: tag rules test substring
containment of `#value` in `rawText`, path rules test path-prefix or exact
equality of `filePath`. -/
def matchFilterRule (task : Task) (rule : FilterRule) : Bool :=
  if rule.isTag then
    containsSub task.rawText ('#' :: rule.value)
  else
    beginsWith (rule.value ++ ['/']) task.filePath || task.filePath = rule.value

mutual

/-- `evaluateExpression` from `taskService.ts`.  A `group` with no
children evaluates to `true`; a nonempty `group` is the OR of its
children (`expressions.some(...)`). -/
def evaluateExpression (task : Task) : ExpressionNode → Bool
  | .rule r =>
    match r.rtype with
    | .includeRule => matchFilterRule task r
    | .excludeRule => !(matchFilterRule task r)
  | .logical op l r =>
    match op with
    | .andOp => evaluateExpression task l && evaluateExpression task r
    | .orOp => evaluateExpression task l || evaluateExpression task r
  | .group [] => true
  | .group (e :: rest) => evaluateExpression task e || evalSome task rest

/-- Helper modelling `expressions.some(expr => evaluateExpression(task, expr))`
over the remaining children. -/
def evalSome (task : Task) : List ExpressionNode → Bool
  | [] => false
  | e :: rest => evaluateExpression task e || evalSome task rest

end

theorem evalSome_iff (task : Task) (es : List ExpressionNode) :
    evalSome task es = true ↔ ∃ e ∈ es, evaluateExpression task e = true := by
  induction es with
  | nil => simp [evalSome]
  | cons e rest ih =>
    simp [evalSome, Bool.or_eq_true, ih]

theorem evaluateExpression_group_iff (task : Task) (es : List ExpressionNode)
    (h : es ≠ []) :
    evaluateExpression task (.group es) = true ↔
      ∃ e ∈ es, evaluateExpression task e = true := by
  cases es with
  | nil => exact absurd rfl h
  | cons e rest =>
    simp [evaluateExpression, Bool.or_eq_true, evalSome_iff]

/-! ## Tokenizer (tokenizeFilter) -/

/-- Expansion step of `tokenizeFilter`: the source first rewrites every
parenthesis to the same parenthesis surrounded by spaces
(`replace(/\(/g, ' ( ').replace(/\)/g, ' ) ')`). -/
def expandParens (c : Char) : Str :=
  if c = '(' then [' ', '(', ' ']
  else if c = ')' then [' ', ')', ' ']
  else [c]

/-- Splitting on whitespace runs.  `split(/\s+/)` followed by
`filter(token => token.trim())` keeps exactly the maximal runs of
non-whitespace characters, which is what this helper computes. -/
def splitWsAux : Str → Str → List Str
  | acc, [] => if acc = [] then [] else [acc.reverse]
  | acc, c :: rest =>
    if isWs c then
      if acc = [] then splitWsAux [] rest
      else acc.reverse :: splitWsAux [] rest
    else splitWsAux (c :: acc) rest

/-- `tokenizeFilter` from `taskService.ts`. -/
def tokenizeFilter (filterString : Str) : List Str :=
  splitWsAux [] (filterString.flatMap expandParens)

theorem splitWsAux_nil_iff (acc l : Str) :
    splitWsAux acc l = [] ↔ acc = [] ∧ l.all isWs = true := by
  induction l generalizing acc with
  | nil =>
    by_cases h : acc = [] <;> simp [splitWsAux, h]
  | cons c rest ih =>
    by_cases hc : isWs c <;> by_cases ha : acc = [] <;>
      simp [splitWsAux, hc, ha, ih]

theorem tokenizeFilter_nil_iff (s : Str) :
    tokenizeFilter s = [] ↔ s.all isWs = true := by
  unfold tokenizeFilter
  rw [splitWsAux_nil_iff]
  simp only [true_and]
  induction s with
  | nil => simp
  | cons c rest ih =>
    simp only [List.flatMap_cons, List.all_append, List.all_cons, ih, Bool.and_eq_true]
    constructor
    · intro h
      refine ⟨?_, h.2⟩
      have h1 := h.1
      by_cases hc1 : c = '('
      · simp [expandParens, hc1, isWs] at h1
      · by_cases hc2 : c = ')'
        · simp [expandParens, hc1, hc2, isWs] at h1
        · simpa [expandParens, hc1, hc2] using h1
    · intro h
      refine ⟨?_, h.2⟩
      have hw := h.1
      have hc1 : c ≠ '(' := by
        intro hc; rw [hc] at hw; simp [isWs] at hw
      have hc2 : c ≠ ')' := by
        intro hc; rw [hc] at hw; simp [isWs] at hw
      simpa [expandParens, hc1, hc2] using hw

/-! ## Parser (parseTokens / parseCustomFilter)

The source parser is a recursive-descent parser over a token array with a
shared mutable cursor.  It is embedded here as pure functions threading the
cursor index, with an explicit fuel argument to make the mutual recursion
structural; `parse_fuel_sufficient` below proves the fuel branch is
unreachable for the fuel used by `parseCustomFilter`, which is the formal
content of "the parser always terminates and returns a tree". -/

/-- `parseRule` from `taskService.ts`, applied to `tokens[index]`
(`none` models `undefined` when the cursor is past the end). -/
def parseRule (tok : Option Str) : ExpressionNode :=
  let token := tok.getD []
  let (ty, value1) :=
    if beginsWith ['!'] token then (FilterRuleType.excludeRule, token.drop 1)
    else (FilterRuleType.includeRule, token)
  let (isTag, value2) :=
    if beginsWith ['#'] value1 then (true, value1.drop 1)
    else (false, value1)
  .rule { rtype := ty, value := value2, isTag := isTag }

mutual

/-- `parseExpression` (fuel-indexed). -/
def parseExprF (ts : List Str) (fuel : Nat) (idx : Nat) :
    Option (ExpressionNode × Nat) :=
  match fuel with
  | 0 => none
  | f + 1 => parseLogicalF ts f idx
termination_by structural fuel

/-- `parseLogicalExpression` before its `while` loop (fuel-indexed). -/
def parseLogicalF (ts : List Str) (fuel : Nat) (idx : Nat) :
    Option (ExpressionNode × Nat) :=
  match fuel with
  | 0 => none
  | f + 1 =>
    match parsePrimF ts f idx with
    | none => none
    | some (l, j) => parseLogicalLoopF ts f l j
termination_by structural fuel

/-- The `while` loop of `parseLogicalExpression` (fuel-indexed). -/
def parseLogicalLoopF (ts : List Str) (fuel : Nat) (left : ExpressionNode)
    (idx : Nat) : Option (ExpressionNode × Nat) :=
  match fuel with
  | 0 => none
  | f + 1 =>
    match ts[idx]? with
    | some tk =>
      if tk = "and".toList ∨ tk = "or".toList then
        match parsePrimF ts f (idx + 1) with
        | none => none
        | some (r, j) =>
          let op := if tk = "and".toList then LogicalOperator.andOp
                    else LogicalOperator.orOp
          parseLogicalLoopF ts f (.logical op left r) j
      else some (left, idx)
    | none => some (left, idx)
termination_by structural fuel

/-- `parsePrimaryExpression` (fuel-indexed). -/
def parsePrimF (ts : List Str) (fuel : Nat) (idx : Nat) :
    Option (ExpressionNode × Nat) :=
  match fuel with
  | 0 => none
  | f + 1 =>
    if ts[idx]? = some "(".toList then
      match parseGroupLoopF ts f [] (idx + 1) with
      | none => none
      | some (es, j) => some (.group es, j)
    else some (parseRule (ts[idx]?), idx + 1)
termination_by structural fuel

/-- The children-collecting loop inside `parsePrimaryExpression`'s
parenthesis branch, including the closing-parenthesis skip (fuel-indexed). -/
def parseGroupLoopF (ts : List Str) (fuel : Nat) (acc : List ExpressionNode)
    (idx : Nat) : Option (List ExpressionNode × Nat) :=
  match fuel with
  | 0 => none
  | f + 1 =>
    match ts[idx]? with
    | some tk =>
      if tk = ")".toList then some (acc, idx + 1)
      else
        match parseExprF ts f idx with
        | none => none
        | some (e, j) => parseGroupLoopF ts f (acc ++ [e]) j
    | none => some (acc, idx)
termination_by structural fuel

end

/-- `parseCustomFilter` from `taskService.ts`: blank input gives `null`;
otherwise the token stream is parsed from index 0.  The fuel
`4 * (length + 1) + 3` is enough for the whole parse
(`parse_fuel_sufficient`). -/
def parseCustomFilter (filterString : Str) : Option ExpressionNode :=
  if ((filterString.dropWhile isWs).reverse.dropWhile isWs).reverse = [] then none
  else
    let tokens := tokenizeFilter filterString
    if tokens = [] then none
    else
      match parseExprF tokens (4 * (tokens.length + 1) + 3) 0 with
      | some (n, _) => some n
      | none => none

/-- Fuel sufficiency: with enough fuel every parsing function returns a
result (never the out-of-fuel `none`), and the cursor makes the progress
the source's `while` guards rely on.  This is the formal counterpart of
termination of the source's recursive-descent parser. -/
theorem parse_fuel_sufficient (ts : List Str) : ∀ f : Nat,
    (∀ idx, idx ≤ ts.length → 4 * (ts.length + 1 - idx) + 1 ≤ f →
      ∃ n j, parsePrimF ts f idx = some (n, j) ∧ idx < j ∧ j ≤ ts.length + 1) ∧
    (∀ idx, idx ≤ ts.length → 4 * (ts.length + 1 - idx) + 2 ≤ f →
      ∃ n j, parseLogicalF ts f idx = some (n, j) ∧ idx < j ∧ j ≤ ts.length + 1) ∧
    (∀ idx, idx ≤ ts.length → 4 * (ts.length + 1 - idx) + 3 ≤ f →
      ∃ n j, parseExprF ts f idx = some (n, j) ∧ idx < j ∧ j ≤ ts.length + 1) ∧
    (∀ left idx, idx ≤ ts.length + 1 → 4 * (ts.length + 1 - idx) + 1 ≤ f →
      ∃ n j, parseLogicalLoopF ts f left idx = some (n, j) ∧ idx ≤ j ∧
        j ≤ ts.length + 1) ∧
    (∀ acc idx, idx ≤ ts.length + 1 → 4 * (ts.length + 1 - idx) + 4 ≤ f →
      ∃ es j, parseGroupLoopF ts f acc idx = some (es, j) ∧ idx ≤ j ∧
        j ≤ ts.length + 1) := by
  intro f
  induction f with
  | zero =>
    refine ⟨?_, ?_, ?_, ?_, ?_⟩ <;> intros <;> omega
  | succ f ih =>
    obtain ⟨ihPrim, ihLog, ihExpr, ihLoop, ihGroup⟩ := ih
    refine ⟨?_, ?_, ?_, ?_, ?_⟩
    · -- parsePrimF
      intro idx hidx hfuel
      by_cases hpar : ts[idx]? = some ['(']
      · have hlt : idx < ts.length := by
          by_contra hge
          have : ts[idx]? = none := List.getElem?_eq_none (by omega)
          simp [this] at hpar
        obtain ⟨es, j, heq, hij, hje⟩ :=
          ihGroup [] (idx + 1) (by omega) (by omega)
        refine ⟨.group es, j, ?_, by omega, hje⟩
        simp [parsePrimF, hpar, heq]
      · refine ⟨parseRule ts[idx]?, idx + 1, ?_, by omega, by omega⟩
        simp [parsePrimF, hpar]
    · -- parseLogicalF
      intro idx hidx hfuel
      obtain ⟨l, j, heql, hij, hje⟩ := ihPrim idx hidx (by omega)
      obtain ⟨n, j₂, heq2, hjj, hj2⟩ := ihLoop l j hje (by omega)
      exact ⟨n, j₂, by simp [parseLogicalF, heql, heq2], by omega, hj2⟩
    · -- parseExprF
      intro idx hidx hfuel
      obtain ⟨n, j, heq, hij, hje⟩ := ihLog idx hidx (by omega)
      exact ⟨n, j, by simp [parseExprF, heq], hij, hje⟩
    · -- parseLogicalLoopF
      intro left idx hidx hfuel
      cases hg : ts[idx]? with
      | none => exact ⟨left, idx, by simp [parseLogicalLoopF, hg], le_refl _, hidx⟩
      | some tk =>
        have hlt : idx < ts.length := by
          by_contra hge
          have : ts[idx]? = none := List.getElem?_eq_none (by omega)
          simp [this] at hg
        by_cases hop : tk = ['a','n','d'] ∨ tk = ['o','r']
        · obtain ⟨r, j, heqr, hij, hje⟩ :=
            ihPrim (idx + 1) (by omega) (by omega)
          obtain ⟨n, j₂, heq2, hjj, hj2⟩ :=
            ihLoop (.logical (if tk = ['a','n','d'] then .andOp else .orOp) left r)
              j hje (by omega)
          refine ⟨n, j₂, ?_, by omega, hj2⟩
          simp [parseLogicalLoopF, hg, hop, heqr, heq2]
        · exact ⟨left, idx, by simp [parseLogicalLoopF, hg, hop], le_refl _, by omega⟩
    · -- parseGroupLoopF
      intro acc idx hidx hfuel
      cases hg : ts[idx]? with
      | none => exact ⟨acc, idx, by simp [parseGroupLoopF, hg], le_refl _, hidx⟩
      | some tk =>
        have hlt : idx < ts.length := by
          by_contra hge
          have : ts[idx]? = none := List.getElem?_eq_none (by omega)
          simp [this] at hg
        by_cases hclose : tk = [')']
        · exact ⟨acc, idx + 1, by simp [parseGroupLoopF, hg, hclose], by omega, by omega⟩
        · obtain ⟨e, j, heqe, hij, hje⟩ := ihExpr idx (by omega) (by omega)
          obtain ⟨es, j₂, heq2, hjj, hj2⟩ :=
            ihGroup (acc ++ [e]) j hje (by omega)
          refine ⟨es, j₂, ?_, by omega, hj2⟩
          simp [parseGroupLoopF, hg, hclose, heqe, heq2]

/-- `parseCustomFilter` always yields a tree on non-blank input. -/
theorem parseCustomFilter_total (s : Str) (h : s.all isWs = false) :
    ∃ n, parseCustomFilter s = some n := by
  have htok : tokenizeFilter s ≠ [] := by
    intro hnil
    rw [tokenizeFilter_nil_iff] at hnil
    simp [hnil] at h
  have htrim : ((s.dropWhile isWs).reverse.dropWhile isWs).reverse ≠ [] := by
    intro hnil
    have h1 : (s.dropWhile isWs).reverse.dropWhile isWs = [] := by
      simpa using congrArg List.reverse hnil
    have h2 : ∀ c ∈ s.dropWhile isWs, isWs c = true := by
      intro c hc
      exact List.dropWhile_eq_nil_iff.mp h1 c (List.mem_reverse.mpr hc)
    have h3 : s.all isWs = true := by
      rw [List.all_eq_true]
      intro c hc
      have hsplit : c ∈ s.takeWhile isWs ++ s.dropWhile isWs := by
        rw [List.takeWhile_append_dropWhile]
        exact hc
      rcases List.mem_append.mp hsplit with hm | hm
      · exact List.mem_takeWhile_imp hm
      · exact h2 c hm
    rw [h3] at h
    exact absurd h (by simp)
  obtain ⟨_, _, ihExpr, _, _⟩ :=
    parse_fuel_sufficient (tokenizeFilter s) (4 * ((tokenizeFilter s).length + 1) + 3)
  obtain ⟨n, j, heq, _, _⟩ := ihExpr 0 (by omega) (by omega)
  refine ⟨n, ?_⟩
  unfold parseCustomFilter
  rw [if_neg htrim, if_neg htok, heq]

/-! ## Claim theorems: filter expression engine -/

/-- C1: a `Group` node with zero children evaluates to `true`; a `Group`
with one or more children evaluates to `true` iff at least one child does
(OR-combine), for every task and child list, however the children were
produced; and `parse("(#a #b)")` evaluates to `true` against any task
whose `rawText` contains either tag. -/
theorem c1_group_or_semantics :
    (∀ task : Task, evaluateExpression task (.group []) = true) ∧
    (∀ (task : Task) (es : List ExpressionNode), es ≠ [] →
      (evaluateExpression task (.group es) = true ↔
        ∃ e ∈ es, evaluateExpression task e = true)) ∧
    (∀ task : Task,
      containsSub task.rawText ['#', 'a'] = true ∨
        containsSub task.rawText ['#', 'b'] = true →
      ∃ n, parseCustomFilter "(#a #b)".toList = some n ∧
        evaluateExpression task n = true) := by
  refine ⟨fun task => rfl, fun task es h => evaluateExpression_group_iff task es h, ?_⟩
  intro task h
  have hp : parseCustomFilter "(#a #b)".toList =
      some (.group [.rule ⟨.includeRule, ['a'], true⟩,
                    .rule ⟨.includeRule, ['b'], true⟩]) := by rfl
  refine ⟨_, hp, ?_⟩
  simp only [evaluateExpression, evalSome, matchFilterRule, if_pos rfl, Bool.or_false,
    Bool.or_eq_true]
  rcases h with h | h
  · exact Or.inl h
  · exact Or.inr h

/-- Witness for C1 at a concrete task containing `#b`. -/
theorem c1_group_or_semantics_witness :
    ∃ n, parseCustomFilter "(#a #b)".toList = some n ∧
      evaluateExpression ⟨"t".toList, false, "p.md".toList, none,
        "note #b later".toList⟩ n = true :=
  c1_group_or_semantics.2.2 _ (Or.inr (by decide))

/-- C2: a tag rule matches iff `rawText` contains the literal substring
`#value`; a path rule matches iff `filePath` equals `value` or starts with
`value + "/"`; and an `exclude` rule node evaluates to the negation of the
match test. -/
theorem c2_rule_matching (t : Task) (r : FilterRule) :
    (r.isTag = true →
      (matchFilterRule t r = true ↔
        ∃ p s, t.rawText = p ++ ('#' :: r.value) ++ s)) ∧
    (r.isTag = false →
      (matchFilterRule t r = true ↔
        t.filePath = r.value ∨ ∃ rest, t.filePath = r.value ++ '/' :: rest)) ∧
    (evaluateExpression t (.rule ⟨.excludeRule, r.value, r.isTag⟩) =
      !(matchFilterRule t ⟨.excludeRule, r.value, r.isTag⟩)) := by
  refine ⟨?_, ?_, ?_⟩
  · intro htag
    rw [matchFilterRule, if_pos htag]
    exact containsSub_iff t.rawText ('#' :: r.value)
  · intro hpath
    rw [matchFilterRule, if_neg (by simp [hpath])]
    simp only [Bool.or_eq_true, beginsWith_iff, decide_eq_true_eq]
    constructor
    · rintro (⟨rest, h⟩ | h)
      · exact Or.inr ⟨rest, by simpa [List.append_assoc] using h⟩
      · exact Or.inl h
    · rintro (h | ⟨rest, h⟩)
      · exact Or.inr h
      · exact Or.inl ⟨rest, by simpa [List.append_assoc] using h⟩
  · simp [evaluateExpression]

/-- Witness for C2: a concrete tag rule matching via an explicit
decomposition, and a concrete exclude rule evaluating to the negation. -/
theorem c2_rule_matching_witness :
    matchFilterRule ⟨"t".toList, false, "p.md".toList, none, "see #tag here".toList⟩
      ⟨.includeRule, "tag".toList, true⟩ = true :=
  ((c2_rule_matching _ _).1 rfl).mpr ⟨"see ".toList, " here".toList, by decide⟩

/-- C6: for every input string, `parseCustomFilter` returns a result:
`none` exactly on blank input, and a tree on any other input (including
malformed ones), never hitting the parser's out-of-fuel branch. -/
theorem c6_parser_total (s : Str) :
    (s.all isWs = true → parseCustomFilter s = none) ∧
    (s.all isWs = false → ∃ n, parseCustomFilter s = some n) := by
  constructor
  · intro hblank
    have hdrop : s.dropWhile isWs = [] := by
      rw [List.dropWhile_eq_nil_iff]
      intro c hc
      exact List.all_eq_true.mp hblank c hc
    unfold parseCustomFilter
    rw [if_pos (by simp [hdrop])]
  · exact parseCustomFilter_total s

/-- Witness for C6: blank input yields `none`; input with unbalanced
parentheses and a trailing operator still yields a tree. -/
theorem c6_parser_total_witness :
    parseCustomFilter "   ".toList = none ∧
      ∃ n, parseCustomFilter "((#a and".toList = some n :=
  ⟨(c6_parser_total _).1 (by decide), (c6_parser_total _).2 (by decide)⟩

/-! ## Task filtering pipeline (filterTasks, renderTaskListByDateRange) -/

/-- The `TaskFilterSettings` interface (settings.ts). -/
structure TaskFilterSettings where
  customFilter : Str
deriving DecidableEq

/-- The part of `MyPluginSettings` consumed by `filterTasks`. -/
structure MyPluginSettings where
  taskFilter : TaskFilterSettings
deriving DecidableEq

/-- The instant produced by `new Date(filterDate)` followed by
`setHours(23, 59, 59, 999)`: local 23:59:59.999 of `filterDate`'s local
calendar day, for a host timezone `tz` minutes east of UTC.  `Int./` is
floor division for a positive divisor, matching the day computation of
ECMAScript `MakeDay`. -/
def endOfDayLocal (tz filterDate : Int) : Int :=
  ((filterDate + tz * 60000) / 86400000) * 86400000 + 86399999 - tz * 60000

/-- `parseCustomFilter` returns `null` exactly on blank input. -/
theorem parseCustomFilter_none_iff (s : Str) :
    parseCustomFilter s = none ↔ s.all isWs = true := by
  constructor
  · intro h
    cases hb : s.all isWs with
    | true => rfl
    | false =>
      obtain ⟨n, hn⟩ := parseCustomFilter_total s hb
      rw [hn] at h
      exact Option.noConfusion h
  · intro hblank
    have hdrop : s.dropWhile isWs = [] := by
      rw [List.dropWhile_eq_nil_iff]
      intro c hc
      exact List.all_eq_true.mp hblank c hc
    unfold parseCustomFilter
    rw [if_pos (by simp [hdrop])]

/-- `filterTasks` from `taskService.ts`: drop a task whose due date is
after end-of-day of `filterDate`; then pass everything if there is no
filter expression, else evaluate it. -/
def filterTasks (tasks : List Task) (settings : MyPluginSettings)
    (filterDate tz : Int) : List Task :=
  let expression := parseCustomFilter settings.taskFilter.customFilter
  tasks.filter fun task =>
    match task.dueDate with
    | some d =>
      if endOfDayLocal tz filterDate < d then false
      else
        match expression with
        | none => true
        | some e => evaluateExpression task e
    | none =>
      match expression with
      | none => true
      | some e => evaluateExpression task e

/-- C3: `filterTasks` keeps a task iff (no due date, or due date at most
end-of-day of the cutoff) and (blank filter, or the parsed expression
evaluates to `true`); blank filter is exactly the no-expression case, and
the end-of-day instant has local time 23:59:59.999 on the cutoff's local
day, so a task due exactly then is kept and one due later that day is
dropped. -/
theorem c3_filter_tasks (tasks : List Task) (settings : MyPluginSettings)
    (filterDate tz : Int) (t : Task) :
    (t ∈ filterTasks tasks settings filterDate tz ↔
      t ∈ tasks ∧
      (∀ d, t.dueDate = some d → d ≤ endOfDayLocal tz filterDate) ∧
      (parseCustomFilter settings.taskFilter.customFilter = none ∨
        ∃ e, parseCustomFilter settings.taskFilter.customFilter = some e ∧
          evaluateExpression t e = true)) ∧
    (parseCustomFilter settings.taskFilter.customFilter = none ↔
      settings.taskFilter.customFilter.all isWs = true) ∧
    ((endOfDayLocal tz filterDate + tz * 60000) % 86400000 = 86399999 ∧
      (endOfDayLocal tz filterDate + tz * 60000) / 86400000 =
        (filterDate + tz * 60000) / 86400000) := by
  refine ⟨?_, parseCustomFilter_none_iff _, ?_⟩
  · rw [filterTasks, List.mem_filter]
    refine and_congr_right fun _ => ?_
    cases ht : t.dueDate with
    | none =>
      cases hexp : parseCustomFilter settings.taskFilter.customFilter with
      | none => simp [ht, hexp]
      | some e => simp [ht, hexp]
    | some d =>
      cases hexp : parseCustomFilter settings.taskFilter.customFilter with
      | none =>
        by_cases hlt : endOfDayLocal tz filterDate < d
        · simp only [ht, hexp, if_pos hlt]
          constructor
          · intro hfalse
            exact absurd hfalse (by simp)
          · rintro ⟨hd, -⟩
            have := hd d rfl
            omega
        · simp only [ht, hexp, if_neg hlt]
          constructor
          · intro _
            refine ⟨fun d' hd' => ?_, Or.inl trivial⟩
            injection hd' with h
            omega
          · intro _
            trivial
      | some e =>
        by_cases hlt : endOfDayLocal tz filterDate < d
        · simp only [ht, hexp, if_pos hlt]
          constructor
          · intro hfalse
            exact absurd hfalse (by simp)
          · rintro ⟨hd, -⟩
            have := hd d rfl
            omega
        · simp only [ht, hexp, if_neg hlt]
          constructor
          · intro hev
            refine ⟨fun d' hd' => ?_, Or.inr ⟨e, rfl, hev⟩⟩
            injection hd' with h
            omega
          · rintro ⟨-, (hnone | ⟨e', he', hev⟩)⟩
            · exact Option.noConfusion hnone
            · injection he' with h
              rw [h]
              exact hev
  · unfold endOfDayLocal
    omega

/-- Witness for C3 at timezone UTC+8 (tz = 480), cutoff instant 0: the
end-of-day instant is 57599999 ms; a task due exactly then is kept and a
task due 1 ms later is dropped, under a blank filter. -/
theorem c3_filter_tasks_witness :
    (⟨"a".toList, false, "p.md".toList, some 57599999, "a".toList⟩ : Task) ∈
      filterTasks [⟨"a".toList, false, "p.md".toList, some 57599999, "a".toList⟩]
        ⟨⟨[]⟩⟩ 0 480 ∧
    (⟨"b".toList, false, "p.md".toList, some 57600000, "b".toList⟩ : Task) ∉
      filterTasks [⟨"b".toList, false, "p.md".toList, some 57600000, "b".toList⟩]
        ⟨⟨[]⟩⟩ 0 480 := by
  constructor
  · exact (c3_filter_tasks _ _ 0 480 _).1.mpr
      ⟨by simp, by intro d hd; injection hd with h; rw [← h]; decide, Or.inl rfl⟩
  · intro hmem
    have h := (c3_filter_tasks
      [⟨"b".toList, false, "p.md".toList, some 57600000, "b".toList⟩]
      ⟨⟨[]⟩⟩ 0 480 _).1.mp hmem
    have := h.2.1 57600000 rfl
    revert this
    decide

/-- The task-status sub-filter of the calendar view
(`this.taskStatusFilter`). -/
inductive TaskStatusFilter where
  | all
  | todo
  | done
deriving DecidableEq

/-- The date-range filter inside `renderTaskListByDateRange`
(CalendarView.ts): tasks without a due date are dropped, others are kept
iff `startDate <= dueDate <= endDate`. -/
def filterByDateRange (tasks : List Task) (startDate endDate : Int) : List Task :=
  tasks.filter fun task =>
    match task.dueDate with
    | none => false
    | some d => startDate ≤ d && d ≤ endDate

/-- The status sub-filter applied after the range filter in
`renderTaskListByDateRange`. -/
def applyStatusFilter (status : TaskStatusFilter) (tasks : List Task) : List Task :=
  match status with
  | .all => tasks
  | .todo => tasks.filter fun task => !task.completed
  | .done => tasks.filter fun task => task.completed

/-- The full filtering pipeline of `renderTaskListByDateRange`. -/
def renderRangePipeline (tasks : List Task) (status : TaskStatusFilter)
    (startDate endDate : Int) : List Task :=
  applyStatusFilter status (filterByDateRange tasks startDate endDate)

/-- C7: the range filter keeps exactly the tasks with a due date in
`[startDate, endDate]` inclusive, and a task without a due date is never
returned by the range pipeline, whatever the status filter.  (The range
view never consults the custom filter string at all.) -/
theorem c7_range_filter (tasks : List Task) (startDate endDate : Int) (t : Task) :
    (t ∈ filterByDateRange tasks startDate endDate ↔
      t ∈ tasks ∧ ∃ d, t.dueDate = some d ∧ startDate ≤ d ∧ d ≤ endDate) ∧
    (∀ status, t.dueDate = none →
      t ∉ renderRangePipeline tasks status startDate endDate) := by
  constructor
  · rw [filterByDateRange, List.mem_filter]
    refine and_congr_right fun _ => ?_
    cases ht : t.dueDate with
    | none => simp [ht]
    | some d => simp [ht]
  · intro status hnone hmem
    have hrange : t ∈ filterByDateRange tasks startDate endDate := by
      cases status with
      | all => exact hmem
      | todo => exact (List.mem_filter.mp hmem).1
      | done => exact (List.mem_filter.mp hmem).1
    rw [filterByDateRange, List.mem_filter, hnone] at hrange
    simpa using hrange.2

/-- Witness for C7: a task due at 5 is kept for the range `[0, 10]`; a
task with no due date is dropped by the `todo` pipeline. -/
theorem c7_range_filter_witness :
    (⟨"a".toList, false, "p.md".toList, some 5, "a".toList⟩ : Task) ∈
      filterByDateRange [⟨"a".toList, false, "p.md".toList, some 5, "a".toList⟩]
        0 10 ∧
    (⟨"b".toList, false, "p.md".toList, none, "b".toList⟩ : Task) ∉
      renderRangePipeline [⟨"b".toList, false, "p.md".toList, none, "b".toList⟩]
        .todo 0 10 := by
  constructor
  · exact (c7_range_filter _ 0 10 _).1.mpr ⟨by simp, 5, rfl, by omega, by omega⟩
  · exact (c7_range_filter _ 0 10 _).2 .todo rfl

/-! ## Date arithmetic (src/utils/dateUtils.ts)

Calendar days are identified with their epoch-day number (days since
1970-01-01).  `daysFromCivil` is the standard civil-calendar day-count
algorithm; together with month normalization it models the
`MakeDay`/`MakeDate` arithmetic underlying the `new Date(y, m, d)`
constructor used throughout `dateUtils.ts`.  `Int./` is floor division
for positive divisors, as required. -/

/-- Epoch-day number of the proleptic-Gregorian date `y-m-d` (month
1-based; `d` may lie outside the month and is normalized by day
arithmetic, exactly as ECMAScript `MakeDay` treats the day argument). -/
def daysFromCivil (y m d : Int) : Int :=
  let z := if m ≤ 2 then y - 1 else y
  let era := z / 400
  let yoe := z - era * 400
  let mp := if m ≤ 2 then m + 9 else m - 3
  let doy := (153 * mp + 2) / 5 + d - 1
  let doe := yoe * 365 + yoe / 4 - yoe / 100 + doy
  era * 146097 + doe - 719468

/-- Epoch-day number of `new Date(y, m0, d)` (month 0-based, arbitrary;
ECMAScript normalizes the month by floor division/modulo into the year). -/
def jsMakeDay (y m0 d : Int) : Int :=
  daysFromCivil (y + m0 / 12) (m0 % 12 + 1) d

/-- `getFirstDayOfMonth` from `dateUtils.ts`: `getDay()` of the month's
first day (0 = Sunday; epoch day 0 was a Thursday = 4). -/
def getFirstDayOfMonth (y m0 : Int) : Int :=
  (jsMakeDay y m0 1 + 4) % 7

/-- `getDaysInMonth` from `dateUtils.ts`: the source computes
`new Date(y, m0 + 1, 0).getDate()`, i.e. the day-of-month of the day
before the first of the next month, which equals the length of month
`m0`. -/
def getDaysInMonth (y m0 : Int) : Int :=
  jsMakeDay y (m0 + 1) 1 - jsMakeDay y m0 1

/-- `getPrevMonthDaysToShow` from `dateUtils.ts`. -/
def getPrevMonthDaysToShow (firstDayOfMonth : Int) : Int :=
  if firstDayOfMonth = 0 then 6 else firstDayOfMonth - 1

/-- `getCalendarRows` from `dateUtils.ts`: `Math.ceil((p + dim) / 7)`
for the nonnegative values that occur. -/
def getCalendarRows (prevMonthDaysToShow daysInMonth : Int) : Int :=
  (prevMonthDaysToShow + daysInMonth + 6) / 7

/-- `getCellDate` from `dateUtils.ts`, returning the cell's epoch day and
its `isOtherMonth` flag.  The previous and next month year adjustments are
kept exactly as in the source (including their behavior at January and
December). -/
def getCellDate (rowIndex dayIndex y m0 : Int) : Int × Bool :=
  let firstDayOfMonth := getFirstDayOfMonth y m0
  let prevMonthDaysToShow := getPrevMonthDaysToShow firstDayOfMonth
  let daysInMonth := getDaysInMonth y m0
  let totalCells := rowIndex * 7 + dayIndex
  if totalCells < prevMonthDaysToShow then
    let prevMonth := m0 - 1
    let prevMonthYear := if m0 = 0 then y - 1 else y
    let prevMonthDays := getDaysInMonth prevMonthYear prevMonth
    let day := prevMonthDays - prevMonthDaysToShow + totalCells + 1
    (jsMakeDay prevMonthYear prevMonth day, true)
  else if totalCells < prevMonthDaysToShow + daysInMonth then
    (jsMakeDay y m0 (totalCells - prevMonthDaysToShow + 1), false)
  else
    let nextMonth := m0 + 1
    let nextMonthYear := if m0 = 11 then y + 1 else y
    let day := totalCells - prevMonthDaysToShow - daysInMonth + 1
    (jsMakeDay nextMonthYear nextMonth day, true)

/-- `getMonthDates` from `dateUtils.ts`: the full month grid, row by
row. -/
def getMonthDates (y m0 : Int) : List (List (Int × Bool)) :=
  let rows := getCalendarRows (getPrevMonthDaysToShow (getFirstDayOfMonth y m0))
    (getDaysInMonth y m0)
  (List.range rows.toNat).map fun row =>
    (List.range 7).map fun day =>
      getCellDate (row : Int) (day : Int) y m0

/-- C8: leading other-month days are `6` when the month starts on Sunday
and `firstWeekday - 1` otherwise; the row count is
`ceil((leading + daysInMonth) / 7)`; and the February 2024 grid has
exactly 5 rows of 7 cells, starting with Jan 29-31 as leading other-month
days and ending with Mar 1-3 as trailing other-month days.
(`getMonthDates 2024 1` is February 2024 in 0-based months;
`daysFromCivil` below takes 1-based months.) -/
theorem c8_month_grid :
    getPrevMonthDaysToShow 0 = 6 ∧
    (∀ fw : Int, fw ≠ 0 → getPrevMonthDaysToShow fw = fw - 1) ∧
    (∀ p dim : Int, 0 ≤ p → 0 ≤ dim →
      p + dim ≤ 7 * getCalendarRows p dim ∧
      7 * getCalendarRows p dim < p + dim + 7) ∧
    (getMonthDates 2024 1).map List.length = [7, 7, 7, 7, 7] ∧
    (getMonthDates 2024 1).headD [] =
      [(daysFromCivil 2024 1 29, true), (daysFromCivil 2024 1 30, true),
       (daysFromCivil 2024 1 31, true), (daysFromCivil 2024 2 1, false),
       (daysFromCivil 2024 2 2, false), (daysFromCivil 2024 2 3, false),
       (daysFromCivil 2024 2 4, false)] ∧
    (getMonthDates 2024 1).getLastD [] =
      [(daysFromCivil 2024 2 26, false), (daysFromCivil 2024 2 27, false),
       (daysFromCivil 2024 2 28, false), (daysFromCivil 2024 2 29, false),
       (daysFromCivil 2024 3 1, true), (daysFromCivil 2024 3 2, true),
       (daysFromCivil 2024 3 3, true)] := by
  refine ⟨rfl, ?_, ?_, by decide, by decide, by decide⟩
  · intro fw hfw
    rw [getPrevMonthDaysToShow, if_neg hfw]
  · intro p dim hp hdim
    unfold getCalendarRows
    omega

/-- Witness for C8: February 2024 starts on Thursday (weekday 4), giving
3 leading days, and 3 + 29 days need 5 rows. -/
theorem c8_month_grid_witness :
    getPrevMonthDaysToShow 4 = 3 ∧
    (3 + 29 ≤ 7 * getCalendarRows 3 29 ∧ 7 * getCalendarRows 3 29 < 3 + 29 + 7) := by
  refine ⟨?_, c8_month_grid.2.2.1 3 29 (by omega) (by omega)⟩
  have h := c8_month_grid.2.1 4 (by omega)
  rw [h]
  decide

/-- Modelled from the spec: `getWeekInfo` in `dateUtils.ts` delegates to
the external `dayjs` `isoWeek` plugin (`d.isoWeek()`, `d.isoWeekYear()`),
whose code is not part of this repository.  Following the spec's
description ("ISO-8601, Monday is the first day, the week containing the
year's first Thursday is week 1"), the week's Thursday is located and the
ISO week-year and week number are derived from it. -/
def getWeekInfo (y m d : Int) : Int × Int :=
  let n := daysFromCivil y m d
  let thu := n + (3 - (n + 3) % 7)
  let isoYear :=
    if daysFromCivil (y + 1) 1 1 ≤ thu then y + 1
    else if thu < daysFromCivil y 1 1 then y - 1
    else y
  ((thu - daysFromCivil isoYear 1 1) / 7 + 1, isoYear)

/-- Length of Gregorian year `y` in days is 365 or 366. -/
theorem jan1_year_length (y : Int) :
    365 ≤ daysFromCivil (y + 1) 1 1 - daysFromCivil y 1 1 ∧
    daysFromCivil (y + 1) 1 1 - daysFromCivil y 1 1 ≤ 366 := by
  simp only [daysFromCivil]
  norm_num
  omega

/-- Any date with plausible month/day fields lies between Jan 1 of its
year and Dec 31 of its year (in epoch days). -/
theorem daysFromCivil_within_year (y m d : Int)
    (h1 : 1 ≤ m) (h2 : m ≤ 12) (h3 : 1 ≤ d) (h4 : d ≤ 31) :
    daysFromCivil y 1 1 ≤ daysFromCivil y m d ∧
    daysFromCivil y m d ≤ daysFromCivil (y + 1) 1 1 - 1 := by
  have hlen := jan1_year_length (y - 1)
  simp only [daysFromCivil] at hlen ⊢
  norm_num at hlen ⊢
  by_cases hm : m ≤ 2
  · rw [if_pos hm, if_pos hm]
    omega
  · rw [if_neg hm, if_neg hm]
    omega

/-- C9: `getWeekInfo` implements ISO-8601 week numbering: the week number
is always in `1..53`, the Thursday of the date's Monday-start week falls
inside the returned ISO week-year (the defining ISO property, which makes
the returned year differ from the Gregorian year near year boundaries),
and concretely `getWeekInfo 2023 1 1 = (52, 2022)`. -/
theorem c9_iso_week (y m d : Int)
    (h1 : 1 ≤ m) (h2 : m ≤ 12) (h3 : 1 ≤ d) (h4 : d ≤ 31) :
    (1 ≤ (getWeekInfo y m d).1 ∧ (getWeekInfo y m d).1 ≤ 53) ∧
    (daysFromCivil (getWeekInfo y m d).2 1 1 ≤
        daysFromCivil y m d + (3 - (daysFromCivil y m d + 3) % 7) ∧
      daysFromCivil y m d + (3 - (daysFromCivil y m d + 3) % 7) <
        daysFromCivil ((getWeekInfo y m d).2 + 1) 1 1) ∧
    getWeekInfo 2023 1 1 = (52, 2022) := by
  refine ⟨?_, ?_, by decide⟩ <;>
  · have hwithin := daysFromCivil_within_year y m d h1 h2 h3 h4
    have hlenPrev := jan1_year_length (y - 1)
    have hlenCur := jan1_year_length y
    have hlenNext := jan1_year_length (y + 1)
    simp only [getWeekInfo]
    split
    · rename_i hge
      norm_num at hlenNext ⊢
      omega
    · split
      · rename_i hlt
        norm_num at hlenPrev ⊢
        omega
      · rename_i hnge hnlt
        norm_num at hlenCur ⊢
        omega

/-- Witness for C9 at 2023-01-01 (a Sunday in ISO week 52 of 2022). -/
theorem c9_iso_week_witness :
    (1 ≤ (getWeekInfo 2023 1 1).1 ∧ (getWeekInfo 2023 1 1).1 ≤ 53) ∧
      getWeekInfo 2023 1 1 = (52, 2022) :=
  ⟨(c9_iso_week 2023 1 1 (by omega) (by omega) (by omega) (by omega)).1,
   (c9_iso_week 2023 1 1 (by omega) (by omega) (by omega) (by omega)).2.2⟩

/-! ## String.replace with a string pattern (first occurrence only) -/

/-- Index of the first occurrence of `pat` in `s`, if any; models the
search performed by JavaScript `s.replace(pat, rep)` when `pat` is a
string. -/
def firstOcc (s pat : Str) : Option Nat :=
  if beginsWith pat s then some 0
  else
    match s with
    | [] => none
    | _ :: rest => (firstOcc rest pat).map (· + 1)

/-- JavaScript `s.replace(pat, rep)` for a string pattern `pat` whose
replacement contains no `$` patterns: replace the first occurrence only,
return `s` unchanged if there is none. -/
def replaceFirst (s pat rep : Str) : Str :=
  match firstOcc s pat with
  | none => s
  | some i => s.take i ++ rep ++ s.drop (i + pat.length)

theorem firstOcc_some_spec (s pat : Str) (i : Nat) (h : firstOcc s pat = some i) :
    beginsWith pat (s.drop i) = true ∧
    ∀ j < i, beginsWith pat (s.drop j) = false := by
  induction s generalizing i with
  | nil =>
    rw [firstOcc] at h
    split at h
    · rename_i hb
      injection h with h
      subst h
      exact ⟨hb, by omega⟩
    · exact Option.noConfusion h
  | cons c rest ih =>
    rw [firstOcc] at h
    split at h
    · rename_i hb
      injection h with h
      subst h
      exact ⟨hb, by omega⟩
    · rename_i hb
      cases hr : firstOcc rest pat with
      | none => rw [hr] at h; exact Option.noConfusion h
      | some i' =>
        rw [hr] at h
        simp only [Option.map_some'] at h
        injection h with h
        subst h
        obtain ⟨hfound, hmin⟩ := ih i' hr
        refine ⟨hfound, ?_⟩
        intro j hj
        cases j with
        | zero => simpa using (Bool.eq_false_iff.mpr hb)
        | succ j' => exact hmin j' (by omega)

theorem firstOcc_none_spec (s pat : Str) (h : firstOcc s pat = none) :
    ∀ j, beginsWith pat (s.drop j) = false := by
  induction s with
  | nil =>
    rw [firstOcc] at h
    split at h
    · exact Option.noConfusion h
    · intro j
      rename_i hb
      simpa using (Bool.eq_false_iff.mpr hb)
  | cons c rest ih =>
    rw [firstOcc] at h
    split at h
    · exact Option.noConfusion h
    · rename_i hb
      cases hr : firstOcc rest pat with
      | some i' => rw [hr] at h; simp at h
      | none =>
        intro j
        cases j with
        | zero => simpa using (Bool.eq_false_iff.mpr hb)
        | succ j' => exact ih hr j'

/-! ## formatDate (src/utils/dateUtils.ts) -/

/-- Decimal digits of a natural number (fuel-indexed so that it reduces;
`n + 1` digits always suffice). -/
def natDigitsAux (fuel n : Nat) : Str :=
  match fuel with
  | 0 => []
  | f + 1 =>
    if n < 10 then [Char.ofNat (48 + n)]
    else natDigitsAux f (n / 10) ++ [Char.ofNat (48 + n % 10)]
termination_by structural fuel

/-- JavaScript `String(x)` for an integer. -/
def intToStr (x : Int) : Str :=
  if x < 0 then '-' :: natDigitsAux (x.natAbs + 1) x.natAbs
  else natDigitsAux (x.toNat + 1) x.toNat

/-- JavaScript `s.padStart(2, '0')`. -/
def padStart2 (s : Str) : Str :=
  if s.length < 2 then List.replicate (2 - s.length) '0' ++ s else s

/-- `getQuarter` from `dateUtils.ts`: `Math.floor((month + 3) / 3)` on the
0-based month. -/
def getQuarter (m0 : Int) : Int :=
  (m0 + 3) / 3

/-- `formatDate` from `dateUtils.ts`.  The generic `dayjs` formatting pass
(`d.format(result)`) is an external collaborator and is taken as an opaque
function `g`; the function substitutes the custom tokens `GGGG`, `WW`, `Q`
(in that order, first occurrence each, via `String.replace` with string
patterns) and hands the result to `g`. -/
def formatDate (g : Str → Str) (y m d : Int) (fmt : Str) : Str :=
  let weekInfo := getWeekInfo y m d
  let week := padStart2 (intToStr weekInfo.1)
  let weekYear := intToStr weekInfo.2
  g (replaceFirst
      (replaceFirst
        (replaceFirst fmt "GGGG".toList weekYear)
        "WW".toList week)
      "Q".toList (intToStr (getQuarter (m - 1))))

/-- C10: `formatDate` substitutes only the first occurrence of each custom
token, `GGGG` then `WW` then `Q` in that order, before handing the string
to the generic pass `g`; `replaceFirst` provably rewrites exactly the
first occurrence (leaving any later occurrence in place for `g`), and
concretely a second `Q` survives the custom pass. -/
theorem c10_format_first_occurrence :
    (∀ (g : Str → Str) (y m d : Int) (fmt : Str),
      formatDate g y m d fmt =
        g (replaceFirst
            (replaceFirst
              (replaceFirst fmt "GGGG".toList (intToStr (getWeekInfo y m d).2))
              "WW".toList (padStart2 (intToStr (getWeekInfo y m d).1)))
            "Q".toList (intToStr (getQuarter (m - 1))))) ∧
    (∀ (s pat rep : Str) (i : Nat), firstOcc s pat = some i →
      replaceFirst s pat rep = s.take i ++ rep ++ s.drop (i + pat.length) ∧
      beginsWith pat (s.drop i) = true ∧
      ∀ j < i, beginsWith pat (s.drop j) = false) ∧
    (∀ s pat rep : Str, firstOcc s pat = none →
      replaceFirst s pat rep = s ∧ ∀ j, beginsWith pat (s.drop j) = false) ∧
    formatDate (fun s => s) 2024 3 15 "Q and Q".toList = "1 and Q".toList := by
  refine ⟨fun g y m d fmt => rfl, ?_, ?_, by decide⟩
  · intro s pat rep i h
    refine ⟨?_, firstOcc_some_spec s pat i h⟩
    rw [replaceFirst, h]
  · intro s pat rep h
    refine ⟨?_, firstOcc_none_spec s pat h⟩
    rw [replaceFirst, h]

/-- Witness for C10: `WW` appears twice; only the first occurrence is
rewritten. -/
theorem c10_format_first_occurrence_witness :
    replaceFirst "WW-WW".toList "WW".toList "07".toList = "07-WW".toList := by
  have h := (c10_format_first_occurrence.2.1
    "WW-WW".toList "WW".toList "07".toList 0 (by decide)).1
  rw [h]
  decide

/-! ## Task extraction (extractBasicTasks, regexUtils.ts)

`taskRegex` is `/^\s*-\s*\[(.)\]\s*(.+)$/gm`: with the `m` flag and the
line-anchored pattern, the `exec` loop yields at most one match per line,
so extraction is modelled line by line.  `dueDateRegex` is
`/(?:[@#]|due:\s?|📅\s?)(\d{4}-\d{2}-\d{2})/i`. -/

/-- JavaScript `String.prototype.trim` (on the whitespace characters of
`isWs`). -/
def trimJs (s : Str) : Str :=
  ((s.dropWhile isWs).reverse.dropWhile isWs).reverse

/-- Split a document into lines at `'\n'`. -/
def splitLinesAux : Str → Str → List Str
  | acc, [] => [acc.reverse]
  | acc, '\n' :: rest => acc.reverse :: splitLinesAux [] rest
  | acc, c :: rest => splitLinesAux (c :: acc) rest

/-- All lines of a document. -/
def splitLines (content : Str) : List Str :=
  splitLinesAux [] content

/-- The part of `taskRegex` after `\[(.)\]`: greedy `\s*` followed by
`(.+)$`.  When anything follows the whitespace, `(.+)` gets exactly that;
when the tail is whitespace only but nonempty, the greedy `\s*` backtracks
one character so that `(.+)` can match it; when the tail is empty there is
no match. -/
def afterBracket (c : Char) (l4 : Str) : Option (Char × Str) :=
  let l5 := l4.dropWhile isWs
  if l5 ≠ [] then some (c, l5)
  else if l4 ≠ [] then some (c, [l4.getLastD ' ']) else none

/-- The part of `taskRegex` after `^\s*-\s*`: a literal `[`, any single
character (captured), a literal `]`. -/
def afterDash : Str → Option (Char × Str)
  | '[' :: c :: ']' :: l4 => afterBracket c l4
  | _ => none

/-- Matching `taskRegex` against one line: capture group 1 (the status
character) and group 2 (the rest of the line). -/
def matchTaskLine (line : Str) : Option (Char × Str) :=
  match line.dropWhile isWs with
  | '-' :: l2 => afterDash (l2.dropWhile isWs)
  | _ => none

/-- ASCII digit test (`\d`). -/
def isDigit (c : Char) : Bool :=
  '0' ≤ c && c ≤ '9'

/-- Numeric value of a digit string. -/
def digitsVal (l : Str) : Int :=
  l.foldl (fun acc c => acc * 10 + ((c.toNat : Int) - 48)) 0

/-- `\d{4}-\d{2}-\d{2}` at the head of `l` (anything may follow), giving
the year, month and day values. -/
def parseYmdAt : Str → Option (Int × Int × Int)
  | a :: b :: c :: d :: '-' :: e :: f :: '-' :: g :: h :: _ =>
    if isDigit a && isDigit b && isDigit c && isDigit d && isDigit e &&
        isDigit f && isDigit g && isDigit h then
      some (digitsVal [a, b, c, d], digitsVal [e, f], digitsVal [g, h])
    else none
  | _ => none

/-- One alternation step of `dueDateRegex` at the current position:
`@`, `#`, `due:` (case-insensitive) with an optional whitespace, or `📅`
with an optional whitespace, followed by the date digits.  The
alternatives start with distinct characters, so their order is
immaterial. -/
def tryDueAt : Str → Option (Int × Int × Int)
  | '@' :: rest => parseYmdAt rest
  | '#' :: rest => parseYmdAt rest
  | '📅' :: rest =>
    (match rest with
     | c :: r2 => if isWs c then parseYmdAt r2 else parseYmdAt rest
     | [] => none)
  | c1 :: c2 :: c3 :: ':' :: rest =>
    if c1.toLower = 'd' && c2.toLower = 'u' && c3.toLower = 'e' then
      match rest with
      | c :: r2 => if isWs c then parseYmdAt r2 else parseYmdAt rest
      | [] => none
    else none
  | _ => none

/-- Leftmost match of `dueDateRegex` in `l`: the capture-group values of
the first position at which the pattern matches. -/
def findDueDate (l : Str) : Option (Int × Int × Int) :=
  match tryDueAt l with
  | some r => some r
  | none =>
    match l with
    | [] => none
    | _ :: t => findDueDate t

/-- `new Date("YYYY-MM-DD")` as specified by ECMA-262: a date-only string
is interpreted as *UTC* midnight of that calendar day.  A string whose
fields do not form a real calendar date gives an Invalid Date; an Invalid
Date is modelled as `none`, which is observationally equivalent in this
program (every comparison against an Invalid Date is false, so such a task
is treated exactly like one with `none` in both `filterTasks` and the
range filter). -/
def jsParseDateOnly (y m d : Int) : Option Int :=
  if 1 ≤ m ∧ m ≤ 12 ∧ 1 ≤ d ∧ d ≤ getDaysInMonth y (m - 1) then
    some (daysFromCivil y m d * 86400000)
  else none

/-- The instant whose *local* clock reads `y-m-d 00:00:00.000` in a
timezone `tz` minutes east of UTC — what parsing "in local time" would
produce.  Used to compare against the UTC-based parse the code performs. -/
def localMidnightMs (tz y m d : Int) : Int :=
  daysFromCivil y m d * 86400000 - tz * 60000

/-- The per-line body of the `while ((match = taskRegex.exec(content)))`
loop in `extractBasicTasks`: `match[1]` and `match[2]` are always
nonempty (hence truthy), `completed` is `match[1].toLowerCase() === 'x'`,
`rawText` is `match[2].trim()`, and the due date is the first
`dueDateRegex` match in `rawText`, parsed with `new Date`. -/
def extractTaskFromLine (filePath line : Str) : Option Task :=
  match matchTaskLine line with
  | none => none
  | some (c, rest) =>
    let rawText := trimJs rest
    some { text := rawText
           completed := decide (c.toLower = 'x')
           filePath := filePath
           dueDate := (findDueDate rawText).bind fun v => jsParseDateOnly v.1 v.2.1 v.2.2
           rawText := rawText }

/-- `extractBasicTasks` restricted to one document. -/
def extractTasksFromContent (filePath content : Str) : List Task :=
  (splitLines content).filterMap (extractTaskFromLine filePath)

theorem trimJs_eq_self (s : Str) (h1 : isWs (s.headD 'x') = false)
    (h2 : isWs (s.getLastD 'x') = false) : trimJs s = s := by
  cases s with
  | nil => rfl
  | cons a t =>
    simp only [List.headD_cons] at h1
    have hd : List.dropWhile isWs (a :: t) = a :: t := by
      rw [List.dropWhile_cons, if_neg (by simp [h1])]
    have hrevne : (a :: t).reverse ≠ [] := by simp
    obtain ⟨b, u, hrv⟩ : ∃ b u, (a :: t).reverse = b :: u := by
      cases hx : (a :: t).reverse with
      | nil => exact absurd hx hrevne
      | cons b u => exact ⟨b, u, rfl⟩
    have hlast : (a :: t).getLast? = some b := by
      rw [← List.head?_reverse, hrv]
      rfl
    have hb : isWs b = false := by
      have hbd : (a :: t).getLastD 'x' = b := by
        rw [List.getLastD_eq_getLast?, hlast]
        rfl
      rwa [hbd] at h2
    unfold trimJs
    rw [hd, hrv, List.dropWhile_cons, if_neg (by simp [hb]), ← hrv,
      List.reverse_reverse]

/-- C5 (amended): a line `- [<marker>] <rest>` yields a task that is
completed iff the marker lowercases to `x`, whose raw text is `<rest>`,
and whose due date is the first `@`/`#`/`due:`/`📅` `YYYY-MM-DD` token of
`<rest>` parsed by `new Date` — which, per ECMA-262, interprets a
date-only string as **UTC** midnight, not local midnight; each of the six
documented token spellings is recognized. -/
theorem c5_extraction :
    (∀ (fp : Str) (c : Char) (rest : Str), rest ≠ [] →
      isWs (rest.headD 'x') = false → isWs (rest.getLastD 'x') = false →
      extractTaskFromLine fp ('-' :: ' ' :: '[' :: c :: ']' :: ' ' :: rest) =
        some { text := rest
               completed := decide (c.toLower = 'x')
               filePath := fp
               dueDate := (findDueDate rest).bind fun v =>
                 jsParseDateOnly v.1 v.2.1 v.2.2
               rawText := rest }) ∧
    findDueDate "x @2024-03-15".toList = some (2024, 3, 15) ∧
    findDueDate "x #2024-03-15".toList = some (2024, 3, 15) ∧
    findDueDate "x due:2024-03-15".toList = some (2024, 3, 15) ∧
    findDueDate "x DUE: 2024-03-15".toList = some (2024, 3, 15) ∧
    findDueDate "x 📅2024-03-15".toList = some (2024, 3, 15) ∧
    findDueDate "x 📅 2024-03-15".toList = some (2024, 3, 15) ∧
    jsParseDateOnly 2024 3 15 = some (daysFromCivil 2024 3 15 * 86400000) := by
  refine ⟨?_, by decide, by decide, by decide, by decide, by decide, by decide,
    by decide⟩
  intro fp c rest hne hhead hlast
  obtain ⟨r, t, rfl⟩ : ∃ r t, rest = r :: t := by
    cases rest with
    | nil => exact absurd rfl hne
    | cons r t => exact ⟨r, t, rfl⟩
  simp only [List.headD_cons] at hhead
  have h3 : List.dropWhile isWs (' ' :: r :: t) = r :: t := by
    rw [List.dropWhile_cons, if_pos (by decide), List.dropWhile_cons,
      if_neg (by simp [hhead])]
  have hm : matchTaskLine ('-' :: ' ' :: '[' :: c :: ']' :: ' ' :: r :: t) =
      some (c, r :: t) := by
    have h2 : List.dropWhile isWs (' ' :: '[' :: c :: ']' :: ' ' :: r :: t) =
        '[' :: c :: ']' :: ' ' :: r :: t := by
      rw [List.dropWhile_cons, if_pos (by decide), List.dropWhile_cons,
        if_neg (by decide)]
    unfold matchTaskLine
    rw [List.dropWhile_cons, if_neg (by decide)]
    show afterDash (List.dropWhile isWs (' ' :: '[' :: c :: ']' :: ' ' :: r :: t)) =
      some (c, r :: t)
    rw [h2]
    show afterBracket c (' ' :: r :: t) = some (c, r :: t)
    unfold afterBracket
    rw [h3]
    simp
  have htrim : trimJs (r :: t) = r :: t :=
    trimJs_eq_self (r :: t) (by simpa using hhead) hlast
  rw [extractTaskFromLine, hm]
  simp only [htrim]

/-- Counterexample to C5 as stated: the extracted due date of
`- [ ] Buy milk 📅 2024-03-15` is the UTC-midnight instant of 2024-03-15
(epoch day 19797), which is *not* the local-midnight instant in a host
timezone east of UTC (tz = +480 minutes shown), so the date is not parsed
"as a calendar date in local time". -/
theorem c5_due_date_utc_not_local :
    ((extractTaskFromLine "p.md".toList
        "- [ ] Buy milk 📅 2024-03-15".toList).bind Task.dueDate =
      some (daysFromCivil 2024 3 15 * 86400000)) ∧
    daysFromCivil 2024 3 15 * 86400000 ≠ localMidnightMs 480 2024 3 15 := by
  constructor
  · decide
  · decide

/-- Witness for C5 on the spec's end-to-end example line. -/
theorem c5_extraction_witness :
    extractTaskFromLine "n.md".toList
        ('-' :: ' ' :: '[' :: 'x' :: ']' :: ' ' :: "Buy milk 📅 2024-03-15".toList) =
      some { text := "Buy milk 📅 2024-03-15".toList
             completed := true
             filePath := "n.md".toList
             dueDate := (findDueDate "Buy milk 📅 2024-03-15".toList).bind fun v =>
               jsParseDateOnly v.1 v.2.1 v.2.2
             rawText := "Buy milk 📅 2024-03-15".toList} := by
  have h := c5_extraction.1 "n.md".toList 'x' "Buy milk 📅 2024-03-15".toList
    (by decide) (by decide) (by decide)
  exact h.trans (by decide)

/-! ## Status toggling (updateTaskInNote)

`updateTaskInNote` builds its regex from a *template literal*:

  new RegExp(`^\s*-\s*\[(.)\]\s*${escapeRegExp(task.rawText)}`, 'm')

In a JavaScript template literal the sequences `\s`, `\[`, `\]` are cooked
to plain `s`, `[`, `]`, so the pattern string actually compiled is
`^s*-s*[(.)]s*<escaped rawText>`: literal `s` repetitions, a literal `-`,
a character class matching one of `(` `.` `)`, more `s` repetitions, then
the raw text (whose `escapeRegExp` backslashes are real runtime
characters, so it matches literally).  The functions below model that
compiled regex exactly: `^` with the `m` flag anchors at line starts, the
regex has no `g` flag so `String.replace` rewrites only the first match,
and the replacement callback replaces the first `[<capture>]` inside the
matched text. -/

/-- Greedy matching of `s*` (a literal `s` repeated), in backtracking
order (longest first), continuing with `k`; returns the total consumed
length and the captured class character. -/
def sStarMatch (k : Str → Option (Nat × Char)) : Str → Option (Nat × Char)
  | [] => k []
  | c :: rest =>
    if c = 's' then
      match sStarMatch k rest with
      | some (n, cap) => some (n + 1, cap)
      | none => k (c :: rest)
    else k (c :: rest)

/-- The `[(.)]s*<rawText>` tail of the buggy pattern: one character from
the class `(` `.` `)` (captured), then `s*`, then the literal raw text. -/
def matchFromClass (raw : Str) : Str → Option (Nat × Char)
  | c :: l4 =>
    if c = '(' || c = '.' || c = ')' then
      match sStarMatch
          (fun l5 => if beginsWith raw l5 then some (raw.length, c) else none) l4 with
      | some (n, cap) => some (n + 1, cap)
      | none => none
    else none
  | [] => none

/-- The `-s*[(.)]s*<rawText>` tail of the buggy pattern. -/
def matchFromDash (raw : Str) : Str → Option (Nat × Char)
  | '-' :: l2 =>
    (match sStarMatch (matchFromClass raw) l2 with
     | some (n, cap) => some (n + 1, cap)
     | none => none)
  | _ => none

/-- The full buggy pattern `s*-s*[(.)]s*<rawText>` at one position. -/
def matchBuggyPattern (raw l : Str) : Option (Nat × Char) :=
  sStarMatch (matchFromDash raw) l

/-- Positions after each `'\n'` in the content (line starts other than
0), in increasing order. -/
def lineStartsAux : Str → Nat → List Nat
  | [], _ => []
  | '\n' :: rest, i => (i + 1) :: lineStartsAux rest (i + 1)
  | _ :: rest, i => lineStartsAux rest (i + 1)

/-- All positions where `^` can match under the `m` flag. -/
def lineStarts (content : Str) : List Nat :=
  0 :: lineStartsAux content 0

/-- First line-start position at which the buggy pattern matches, with the
match length and the captured character. -/
def findBuggyMatch (raw content : Str) : List Nat → Option (Nat × Nat × Char)
  | [] => none
  | p :: ps =>
    match matchBuggyPattern raw (content.drop p) with
    | some (n, cap) => some (p, n, cap)
    | none => findBuggyMatch raw content ps

/-- The content transformation performed by `updateTaskInNote`:
`content.replace(taskRegex, (match, status) => match.replace("[" + status
+ "]", completed ? "[x]" : "[ ]"))` with the buggy compiled regex. -/
def updateTaskInContent (content raw : Str) (completed : Bool) : Str :=
  match findBuggyMatch raw content (lineStarts content) with
  | none => content
  | some (p, n, cap) =>
    let matched := (content.drop p).take n
    let newMatched := replaceFirst matched ('[' :: cap :: [']'])
      (if completed then "[x]".toList else "[ ]".toList)
    content.take p ++ newMatched ++ content.drop (p + n)

/-- C4 (code bug): toggling the task `- [ ] Buy milk 📅 2024-03-15` to
completed leaves the document byte-for-byte unchanged — the bracket is
*not* rewritten to `[x]` — because the template literal swallowed the
backslashes of `\s`, `\[`, `\]`, so the compiled regex
`^s*-s*[(.)]s*...` cannot match a real task line. -/
theorem c4_toggle_is_noop :
    updateTaskInContent
        "- [ ] Buy milk 📅 2024-03-15\n- [ ] Other task".toList
        "Buy milk 📅 2024-03-15".toList true =
      "- [ ] Buy milk 📅 2024-03-15\n- [ ] Other task".toList ∧
    updateTaskInContent
        "- [ ] Buy milk 📅 2024-03-15\n- [ ] Other task".toList
        "Buy milk 📅 2024-03-15".toList true ≠
      "- [x] Buy milk 📅 2024-03-15\n- [ ] Other task".toList := by
  exact ⟨by decide, by decide⟩

end JJCal
